import Mathlib

/-!
Shallow embedding of the hobby-picker core (single TypeScript source file).

The embedded pieces are the pure tree algorithms (`sortByScore`,
`getAllHobbies`, `getAllHobbiesInOrder`, `handleSearch`, `getSelectedCount`,
`orderedSelectedHobbies`, `toggleHobby`, `clearAllHobbies`), the stateful
category-color assigner (`getCategoryColor`, `generateSimilarColor`,
`initializeCategoryColors`) with the process-wide `Map` made explicit as
passed state and `Math.random()` made explicit as a stream of rational draws
in `[0,1)`, the per-path disclosure counters (`showMore` and the
`expandedSections[...] || 5` read), and the `localStorage` load of the
selection (with `JSON.parse` as an oracle that either throws or returns a
value).

JavaScript `Array.prototype.sort` is a stable sort (ES2019); a stable sort
for a fixed total preorder is extensionally unique, so `.sort((a, b) =>
b.score - a.score)` is modelled by `List.insertionSort` with the relation
"left score is at least right score". Scores are modelled as integers.
-/

namespace HobbyPicker

/-- The `Hobby` interface: `name: string; items?: Hobby[]; score: number`. -/
inductive Hobby : Type where
  | mk (name : String) (items : Option (List Hobby)) (score : Int)

def Hobby.name : Hobby → String
  | .mk n _ _ => n

def Hobby.items : Hobby → Option (List Hobby)
  | .mk _ i _ => i

def Hobby.score : Hobby → Int
  | .mk _ _ s => s

/-- The ordering used by `sortByScore`'s comparator `(a, b) => b.score -
a.score`: `a` sorts no later than `b` exactly when `a.score ≥ b.score`. -/
def scoreGE (a b : Hobby) : Prop := b.score ≤ a.score

instance : DecidableRel scoreGE := fun a b => Int.decLe b.score a.score

instance : IsTotal Hobby scoreGE := ⟨fun a b => Int.le_total b.score a.score⟩

instance : IsTrans Hobby scoreGE := ⟨fun _ _ _ h₁ h₂ => le_trans h₂ h₁⟩

mutual

/-- The per-element body of `sortByScore`'s `.map`: `{ ...hobby, items:
hobby.items ? sortByScore(hobby.items) : undefined }`. -/
def sortHobby : Hobby → Hobby
  | .mk n none s => .mk n none s
  | .mk n (some ch) s => .mk n (some (sortByScore ch)) s
termination_by h => sizeOf h
decreasing_by
  simp only [Hobby.mk.sizeOf_spec, Option.some.sizeOf_spec]
  omega

/-- `sortByScore` from the source: copy the array, stable-sort it by
descending `score`, and recursively sort each element's `items`. -/
def sortByScore (hobbies : List Hobby) : List Hobby :=
  (hobbies.insertionSort scoreGE).attach.map fun x => sortHobby x.1
termination_by sizeOf hobbies
decreasing_by
  exact List.sizeOf_lt_of_mem ((List.mem_insertionSort scoreGE).mp x.2)

end

theorem sortByScore_eq (hobbies : List Hobby) :
    sortByScore hobbies = (hobbies.insertionSort scoreGE).map sortHobby := by
  rw [sortByScore]
  exact List.attach_map_coe _ _

theorem sortHobby_name (h : Hobby) : (sortHobby h).name = h.name := by
  cases h with
  | mk n items s => cases items <;> simp [sortHobby, Hobby.name]

theorem sortHobby_score (h : Hobby) : (sortHobby h).score = h.score := by
  cases h with
  | mk n items s => cases items <;> simp [sortHobby, Hobby.score]

theorem sortHobby_mk_none (n : String) (s : Int) :
    sortHobby (.mk n none s) = .mk n none s := by
  simp [sortHobby]

theorem sortHobby_mk_some (n : String) (ch : List Hobby) (s : Int) :
    sortHobby (.mk n (some ch) s) = .mk n (some (sortByScore ch)) s := by
  simp [sortHobby]

/-- A stable sort leaves the sublist of elements of any fixed score
untouched: sorting and then filtering to one score class gives back the
input's score class. -/
theorem filter_insertionSort_score (l : List Hobby) (s : Int) :
    (l.insertionSort scoreGE).filter (fun h => decide (h.score = s)) =
      l.filter (fun h => decide (h.score = s)) := by
  have hpair : (l.filter (fun h => decide (h.score = s))).Pairwise scoreGE := by
    apply List.pairwise_of_forall_mem_list
    intro a ha b hb
    have ha' := (List.mem_filter.mp ha).2
    have hb' := (List.mem_filter.mp hb).2
    simp only [decide_eq_true_eq] at ha' hb'
    simp [scoreGE, ha', hb']
  have h1 : List.Sublist (l.filter (fun h => decide (h.score = s)))
      (l.insertionSort scoreGE) :=
    List.sublist_insertionSort hpair (List.filter_sublist l)
  have h2 : List.Perm ((l.insertionSort scoreGE).filter (fun h => decide (h.score = s)))
      (l.filter (fun h => decide (h.score = s))) :=
    (List.perm_insertionSort scoreGE l).filter _
  have h3 : List.Sublist (l.filter (fun h => decide (h.score = s)))
      ((l.insertionSort scoreGE).filter (fun h => decide (h.score = s))) := by
    have h4 := h1.filter (fun h => decide (h.score = s))
    have hidem : (l.filter (fun h => decide (h.score = s))).filter
        (fun h => decide (h.score = s)) = l.filter (fun h => decide (h.score = s)) := by
      apply List.filter_eq_self.mpr
      intro a ha
      exact (List.mem_filter.mp ha).2
    rwa [hidem] at h4
  exact (h3.eq_of_length h2.length_eq.symm).symm

/-- Stability of `sortByScore` at the level where the sort happens: for each
score, the names in that score class appear in the same order as in the
input. -/
theorem sortByScore_filter_name (hs : List Hobby) (s : Int) :
    ((sortByScore hs).filter (fun h => decide (h.score = s))).map Hobby.name =
      (hs.filter (fun h => decide (h.score = s))).map Hobby.name := by
  rw [sortByScore_eq, List.filter_map]
  rw [show ((fun h : Hobby => decide (h.score = s)) ∘ sortHobby) = fun h =>
    decide (h.score = s) from by funext h; simp [sortHobby_score]]
  rw [filter_insertionSort_score, List.map_map]
  apply List.map_congr_left
  intro a _
  simp [sortHobby_name]

mutual

/-- A hobby node all of whose descendant sibling lists are sorted by
descending score. -/
inductive SortedHobby : Hobby → Prop where
  | leaf (n : String) (s : Int) : SortedHobby (.mk n none s)
  | node (n : String) (s : Int) {ch : List Hobby} :
      SortedForest ch → SortedHobby (.mk n (some ch) s)

/-- A forest whose every level (the top one and, recursively, every `items`
list) is sorted by descending score. -/
inductive SortedForest : List Hobby → Prop where
  | mk {l : List Hobby} : l.Sorted scoreGE → (∀ h ∈ l, SortedHobby h) →
      SortedForest l

end

/-- `l` is one of the sibling lists ("levels") of the forest `f`: the top
level itself, or the `items` list of any node reachable from it. -/
inductive IsLevel : List Hobby → List Hobby → Prop where
  | top (f : List Hobby) : IsLevel f f
  | child {l f ch : List Hobby} {n : String} {s : Int} :
      IsLevel l f → Hobby.mk n (some ch) s ∈ l → IsLevel ch f

theorem sortedForest_sortByScore (hs : List Hobby) :
    SortedForest (sortByScore hs) := by
  have main : ∀ (n : Nat) (l : List Hobby), sizeOf l < n →
      SortedForest (sortByScore l) := by
    intro n
    induction n with
    | zero => intro l h; omega
    | succ n ih =>
      intro l hlt
      rw [sortByScore_eq]
      constructor
      · refine List.pairwise_map.mpr ?_
        refine (List.sorted_insertionSort scoreGE l).imp ?_
        intro a b hab
        simpa [scoreGE, sortHobby_score] using hab
      · intro h' hmem
        obtain ⟨h₀, h₀mem, rfl⟩ := List.mem_map.mp hmem
        have h₀mem' : h₀ ∈ l := (List.mem_insertionSort scoreGE).mp h₀mem
        have hsz : sizeOf h₀ < sizeOf l := List.sizeOf_lt_of_mem h₀mem'
        cases h₀ with
        | mk n₀ items₀ s₀ =>
          cases items₀ with
          | none =>
            rw [sortHobby_mk_none]
            exact SortedHobby.leaf n₀ s₀
          | some ch =>
            rw [sortHobby_mk_some]
            refine SortedHobby.node n₀ s₀ (ih ch ?_)
            have : sizeOf ch < sizeOf (Hobby.mk n₀ (some ch) s₀) := by
              simp only [Hobby.mk.sizeOf_spec, Option.some.sizeOf_spec]
              omega
            omega
  exact main (sizeOf hs + 1) hs (Nat.lt_succ_self _)

theorem isLevel_sortByScore_aux : ∀ {l f : List Hobby}, IsLevel l f →
    ∀ hs : List Hobby, f = sortByScore hs →
    ∃ l₀, IsLevel l₀ hs ∧ l = sortByScore l₀ := by
  intro l f h
  induction h with
  | top f => exact fun hs heq => ⟨hs, IsLevel.top hs, heq⟩
  | child hlev hmem ih =>
    intro hs heq
    obtain ⟨l₀, hl₀, rfl⟩ := ih hs heq
    rw [sortByScore_eq] at hmem
    obtain ⟨h₀, h₀mem, heq⟩ := List.mem_map.mp hmem
    have h₀mem' : h₀ ∈ l₀ := (List.mem_insertionSort scoreGE).mp h₀mem
    cases h₀ with
    | mk n₀ items₀ s₀ =>
      cases items₀ with
      | none => rw [sortHobby_mk_none] at heq; exact absurd heq (by simp)
      | some ch₀ =>
        rw [sortHobby_mk_some] at heq
        injection heq with hn hit hsc
        injection hit with hch
        subst hn
        subst hsc
        exact ⟨ch₀, IsLevel.child hl₀ h₀mem', hch.symm⟩

/-- Every level of the sorted forest is itself `sortByScore` of a level of
the input forest. -/
theorem isLevel_sortByScore {l hs : List Hobby}
    (h : IsLevel l (sortByScore hs)) :
    ∃ l₀, IsLevel l₀ hs ∧ l = sortByScore l₀ :=
  isLevel_sortByScore_aux h hs rfl

/-- The top level of the sorted forest has the same names as the input, as
a multiset: sorting only reorders. -/
theorem sortByScore_map_name_perm (hs : List Hobby) :
    List.Perm ((sortByScore hs).map Hobby.name) (hs.map Hobby.name) := by
  rw [sortByScore_eq, List.map_map]
  rw [show (Hobby.name ∘ sortHobby) = Hobby.name from by funext h; simp [sortHobby_name]]
  exact (List.perm_insertionSort scoreGE hs).map Hobby.name

/-- C1: For every forest of scored nodes, `sortByScore` returns a new forest
in which, at every level independently, siblings are ordered by descending
score, siblings with equal scores keep their relative order from the input
(stable sort), and the input forest is not mutated (the embedding is a pure
function: the input is untouched and the top level is a name-permutation of
the input's). Every level of the output is `sortByScore` of a level of the
input, and at the sorting step each score class keeps its input order. -/
theorem sortByScore_correct (hs : List Hobby) :
    SortedForest (sortByScore hs) ∧
    ((sortByScore hs).map Hobby.name).Perm (hs.map Hobby.name) ∧
    (∀ s : Int,
      ((sortByScore hs).filter (fun h => decide (h.score = s))).map Hobby.name =
        (hs.filter (fun h => decide (h.score = s))).map Hobby.name) ∧
    (∀ l, IsLevel l (sortByScore hs) → ∃ l₀, IsLevel l₀ hs ∧ l = sortByScore l₀) :=
  ⟨sortedForest_sortByScore hs, sortByScore_map_name_perm hs,
    fun s => sortByScore_filter_name hs s, fun l hl => isLevel_sortByScore hl⟩

/-- The §8 end-to-end example forest. -/
def demoForest : List Hobby :=
  [.mk "Music" (some [.mk "Guitar" none 5, .mk "Piano" none 8]) 10,
   .mk "Sports" none 7]

/-- Witness for C1 at the §8 example forest, discharging the `IsLevel`
hypothesis with the top level. -/
theorem sortByScore_correct_witness :
    ∃ l₀, IsLevel l₀ demoForest ∧ sortByScore demoForest = sortByScore l₀ :=
  (sortByScore_correct demoForest).2.2.2 (sortByScore demoForest)
    (IsLevel.top (sortByScore demoForest))

/-- `getAllHobbies` from the source: a pre-order flatten of a forest into
the list of all names, by `reduce` with `push` of the name followed by the
recursively flattened `items`. -/
def getAllHobbies : List Hobby → List String
  | [] => []
  | .mk n none _ :: t => n :: getAllHobbies t
  | .mk n (some ch) _ :: t => n :: (getAllHobbies ch ++ getAllHobbies t)

mutual

/-- The inner `traverse` closure of `getAllHobbiesInOrder`: push the name,
then traverse each child. -/
def traverse : Hobby → List String
  | .mk n none _ => [n]
  | .mk n (some ch) _ => n :: traverseList ch

/-- `hobby.items?.forEach(traverse)` over a list of hobbies. -/
def traverseList : List Hobby → List String
  | [] => []
  | h :: t => traverse h ++ traverseList t

end

/-- `getAllHobbiesInOrder` from the source: sort the forest recursively by
score, then collect all names in pre-order. -/
def getAllHobbiesInOrder (hobbies : List Hobby) : List String :=
  traverseList (sortByScore hobbies)

/-- Model of `String.prototype.trim`: strip whitespace from both ends. -/
def jsTrim (s : String) : String :=
  String.mk (((s.toList.dropWhile Char.isWhitespace).reverse.dropWhile
    Char.isWhitespace).reverse)

/-- Model of `String.prototype.toLowerCase`: lower-case each character. -/
def jsToLower (s : String) : String :=
  String.mk (s.toList.map Char.toLower)

/-- Model of `String.prototype.includes`: substring containment. -/
def strIncludes (hay needle : String) : Bool :=
  decide (List.IsInfix needle.toList hay.toList)

/-- `handleSearch` from the source, as the filtered-hobbies value it stores:
trim the query; an empty trimmed query clears the results; otherwise filter
the flattened sorted name list by case-insensitive substring match. -/
def handleSearch (data : List Hobby) (value : String) : List String :=
  if jsTrim value = "" then []
  else
    (getAllHobbies (sortByScore data)).filter
      (fun hobby => strIncludes (jsToLower hobby) (jsToLower (jsTrim value)))

/-- `orderedSelectedHobbies` from the source: the canonical in-order name
list, filtered to the currently selected names. -/
def orderedSelectedHobbies (data : List Hobby) (selectedHobbies : List String) :
    List String :=
  (getAllHobbiesInOrder data).filter (fun hobby => selectedHobbies.contains hobby)

/-- The `{selected, total}` record returned by `getSelectedCount`. -/
structure Counts where
  selected : Nat
  total : Nat
deriving DecidableEq

/-- `getSelectedCount` from the source: reduce over the immediate `items`
only, counting all of them in `total` and the selected ones in `selected`;
a node without `items` yields `{selected: 0, total: 0}`. -/
def getSelectedCount (selectedHobbies : List String) (hobby : Hobby) : Counts :=
  match hobby.items with
  | none => ⟨0, 0⟩
  | some items =>
    items.foldl
      (fun acc subHobby =>
        ⟨acc.selected + (if selectedHobbies.contains subHobby.name then 1 else 0),
         acc.total + 1⟩)
      ⟨0, 0⟩

/-- `toggleHobby` from the source: remove all occurrences if present,
append one occurrence if absent. -/
def toggleHobby (hobby : String) (prev : List String) : List String :=
  if prev.contains hobby then prev.filter (fun h => h != hobby)
  else prev ++ [hobby]

/-- `clearAllHobbies` from the source: the selection becomes empty. -/
def clearAllHobbies : List String := []

/-- The `traverse` closure of `getAllHobbiesInOrder` collects exactly the
same pre-order name list as `getAllHobbies`. -/
theorem traverseList_eq_getAllHobbies :
    ∀ l : List Hobby, traverseList l = getAllHobbies l := by
  have main : ∀ (n : Nat) (l : List Hobby), sizeOf l < n →
      traverseList l = getAllHobbies l := by
    intro n
    induction n with
    | zero => intro l h; omega
    | succ n ih =>
      intro l hlt
      match l with
      | [] => simp [traverseList, getAllHobbies]
      | .mk nm none s :: t =>
        have hszt : sizeOf t < n := by
          simp only [List.cons.sizeOf_spec] at hlt
          omega
        simp only [traverseList, traverse, getAllHobbies]
        rw [ih t hszt]
        rfl
      | .mk nm (some ch) s :: t =>
        have hszt : sizeOf t < n := by
          simp only [List.cons.sizeOf_spec] at hlt
          omega
        have hszch : sizeOf ch < n := by
          simp only [List.cons.sizeOf_spec, Hobby.mk.sizeOf_spec,
            Option.some.sizeOf_spec] at hlt
          omega
        simp only [traverseList, traverse, getAllHobbies]
        rw [ih t hszt, ih ch hszch]
        rfl
  intro l
  exact main (sizeOf l + 1) l (Nat.lt_succ_self _)

/-- C3: searching with an empty or whitespace-only query yields the empty
sequence; any other query yields exactly the subsequence (a `Sublist`, in
flattened order) of the flattened, score-sorted name list whose elements
contain the trimmed query case-insensitively. -/
theorem handleSearch_correct (data : List Hobby) (value : String) :
    (jsTrim value = "" → handleSearch data value = []) ∧
    (jsTrim value ≠ "" →
      handleSearch data value =
        (getAllHobbies (sortByScore data)).filter
          (fun hobby => strIncludes (jsToLower hobby) (jsToLower (jsTrim value))) ∧
      List.Sublist (handleSearch data value) (getAllHobbies (sortByScore data)) ∧
      ∀ x, x ∈ handleSearch data value ↔
        x ∈ getAllHobbies (sortByScore data) ∧
        strIncludes (jsToLower x) (jsToLower (jsTrim value)) = true) := by
  constructor
  · intro h
    simp [handleSearch, h]
  · intro h
    have he : handleSearch data value =
        (getAllHobbies (sortByScore data)).filter
          (fun hobby => strIncludes (jsToLower hobby) (jsToLower (jsTrim value))) := by
      rw [handleSearch, if_neg h]
    refine ⟨he, ?_, ?_⟩
    · rw [he]
      exact List.filter_sublist _
    · intro x
      rw [he]
      simp [List.mem_filter]

/-- Witness for C3 at the §8 example: the query `"mu"` is non-empty after
trimming and returns exactly `["Music"]`. -/
theorem handleSearch_correct_witness :
    jsTrim "mu" ≠ "" ∧
    handleSearch demoForest "mu" =
      (getAllHobbies (sortByScore demoForest)).filter
        (fun hobby => strIncludes (jsToLower hobby) (jsToLower (jsTrim "mu"))) :=
  ⟨by decide, ((handleSearch_correct demoForest "mu").2 (by decide)).1⟩

/-- C4: the ordered selection is the canonical sorted-forest pre-order name
list filtered to the selected names, and it depends only on the selection
as a set of names, not on the order names were toggled or stored. -/
theorem orderedSelectedHobbies_correct (data : List Hobby) (sel : List String) :
    orderedSelectedHobbies data sel =
      (getAllHobbies (sortByScore data)).filter (fun h => sel.contains h) ∧
    ∀ sel₂ : List String, (∀ x, x ∈ sel ↔ x ∈ sel₂) →
      orderedSelectedHobbies data sel = orderedSelectedHobbies data sel₂ := by
  constructor
  · rw [orderedSelectedHobbies, getAllHobbiesInOrder, traverseList_eq_getAllHobbies]
  · intro sel₂ hiff
    rw [orderedSelectedHobbies, orderedSelectedHobbies]
    apply List.filter_congr
    intro x _
    by_cases hx : x ∈ sel
    · have hx₂ : x ∈ sel₂ := (hiff x).mp hx
      simp [List.contains, List.elem_iff, hx, hx₂]
    · have hx₂ : x ∉ sel₂ := fun hc => hx ((hiff x).mpr hc)
      simp [List.contains, List.elem_iff, hx, hx₂]

/-- Witness for C4: two selection lists holding the same set of names in
different order and multiplicity give the same ordered selection. -/
theorem orderedSelectedHobbies_correct_witness :
    (∀ x, x ∈ ["Sports", "Piano"] ↔ x ∈ ["Piano", "Sports", "Piano"]) ∧
    orderedSelectedHobbies demoForest ["Sports", "Piano"] =
      orderedSelectedHobbies demoForest ["Piano", "Sports", "Piano"] :=
  ⟨by intro x; simp; tauto,
   (orderedSelectedHobbies_correct demoForest ["Sports", "Piano"]).2
     ["Piano", "Sports", "Piano"] (by intro x; simp; tauto)⟩

theorem getSelectedCount_fold (sel : List String) (l : List Hobby) (acc : Counts) :
    (l.foldl
      (fun acc subHobby =>
        ⟨acc.selected + (if sel.contains subHobby.name then 1 else 0),
         acc.total + 1⟩)
      acc : Counts) =
      ⟨acc.selected + (l.filter (fun sub => sel.contains sub.name)).length,
       acc.total + l.length⟩ := by
  induction l generalizing acc with
  | nil => simp
  | cons h t ih =>
    rw [List.foldl_cons, ih]
    by_cases hc : sel.contains h.name = true
    · simp only [List.filter_cons, hc, if_true, List.length_cons, Counts.mk.injEq]
      exact ⟨by omega, by omega⟩
    · simp only [List.filter_cons, hc, List.length_cons, Counts.mk.injEq,
        if_false, Bool.false_eq_true]
      exact ⟨by omega, by omega⟩

/-- C7: `getSelectedCount` ranges over the immediate children only: `total`
is the number of immediate children, `selected` is the number of immediate
children whose name is in the selection, and a leaf yields `{0, 0}`. -/
theorem getSelectedCount_correct (sel : List String) (h : Hobby) :
    (getSelectedCount sel h).total = (h.items.getD []).length ∧
    (getSelectedCount sel h).selected =
      ((h.items.getD []).filter (fun sub => sel.contains sub.name)).length ∧
    (h.items = none → getSelectedCount sel h = ⟨0, 0⟩) := by
  cases h with
  | mk n items s =>
    cases items with
    | none => simp [getSelectedCount, Hobby.items]
    | some l =>
      simp only [getSelectedCount, Hobby.items, Option.getD_some]
      rw [getSelectedCount_fold]
      simp

/-- Witness for C7: a leaf node yields `{selected: 0, total: 0}`. -/
theorem getSelectedCount_correct_witness :
    (Hobby.mk "Sports" none 7).items = none ∧
    getSelectedCount ["Sports"] (Hobby.mk "Sports" none 7) = ⟨0, 0⟩ :=
  ⟨rfl, (getSelectedCount_correct ["Sports"] (Hobby.mk "Sports" none 7)).2.2 rfl⟩

/-- C10: on a duplicate-free selection, `toggleHobby` removes every
occurrence of a present name and appends a single occurrence of an absent
one, preserving freedom from duplicates, and `clearAllHobbies` is the empty
selection. The `count` clause pins both branches exactly. -/
theorem toggleHobby_correct (prev : List String) (x : String) (hnd : prev.Nodup) :
    (x ∈ prev → toggleHobby x prev = prev.filter (fun h => h != x) ∧
      x ∉ toggleHobby x prev) ∧
    (x ∉ prev → toggleHobby x prev = prev ++ [x]) ∧
    (∀ y, (toggleHobby x prev).count y =
      if y = x then (if x ∈ prev then 0 else 1) else prev.count y) ∧
    (toggleHobby x prev).Nodup ∧
    clearAllHobbies = [] := by
  by_cases hx : x ∈ prev
  · have hcontains : prev.contains x = true := by
      simp [List.contains, List.elem_iff, hx]
    have he : toggleHobby x prev = prev.filter (fun h => h != x) := by
      rw [toggleHobby, if_pos hcontains]
    have hnotmem : x ∉ toggleHobby x prev := by
      rw [he]
      intro hc
      have := (List.mem_filter.mp hc).2
      simp at this
    refine ⟨fun _ => ⟨he, hnotmem⟩, fun hc => absurd hx hc, ?_, ?_, rfl⟩
    · intro y
      by_cases hyx : y = x
      · subst hyx
        rw [if_pos rfl, if_pos hx]
        exact List.count_eq_zero.mpr hnotmem
      · rw [if_neg hyx, he]
        apply List.count_filter
        exact bne_iff_ne.mpr hyx
    · rw [he]
      exact hnd.filter _
  · have hcontains : prev.contains x = false := by
      simp [List.contains, List.elem_iff, hx]
    have he : toggleHobby x prev = prev ++ [x] := by
      rw [toggleHobby, hcontains]
      simp
    refine ⟨fun hc => absurd hc hx, fun _ => he, ?_, ?_, rfl⟩
    · intro y
      rw [he, List.count_append, List.count_singleton]
      by_cases hyx : y = x
      · subst hyx
        rw [if_pos rfl, if_neg hx]
        rw [List.count_eq_zero.mpr hx]
        simp
      · rw [if_neg hyx]
        have hne : (x == y) = false :=
          beq_eq_false_iff_ne.mpr (fun hc => hyx hc.symm)
        rw [hne]
        simp
    · rw [he, List.nodup_append]
      refine ⟨hnd, List.nodup_singleton x, ?_⟩
      intro a ha hb
      simp at hb
      subst hb
      exact hx ha

/-- Witness for C10 on a concrete duplicate-free selection. -/
theorem toggleHobby_correct_witness :
    ("Piano" ∉ (["Music", "Sports"] : List String)) ∧
    toggleHobby "Piano" ["Music", "Sports"] = ["Music", "Sports"] ++ ["Piano"] :=
  ⟨by decide, (toggleHobby_correct ["Music", "Sports"] "Piano" (by decide)).2.1
    (by decide)⟩

/-- The `expandedSections` record: path key to visible count. -/
def ExpandedSections : Type := String → Option Nat

/-- Model of JavaScript `x || d` on an optionally-present number: `d` when
the value is absent or `0` (falsy), the value itself otherwise. -/
def jsOrNat (x : Option Nat) (dflt : Nat) : Nat :=
  match x with
  | none => dflt
  | some v => if v = 0 then dflt else v

/-- `showMore` from the source:
`{...prev, [hobbyPath]: (prev[hobbyPath] || 5) + 5}`. -/
def showMore (hobbyPath : String) (prev : ExpandedSections) : ExpandedSections :=
  fun k => if k = hobbyPath then some (jsOrNat (prev hobbyPath) 5 + 5) else prev k

/-- The read in `renderItems`: `expandedSections[pathKey] || 5`. -/
def visibleCount (sections : ExpandedSections) (pathKey : String) : Nat :=
  jsOrNat (sections pathKey) 5

/-- The key normalisation at `renderItems`/`showMore` call sites:
`parentPath || "root"`. -/
def rootKey (parentPath : String) : String :=
  if parentPath = "" then "root" else parentPath

/-- The fresh-session disclosure state: no key set. -/
def emptySections : ExpandedSections := fun _ => none

/-- C8: a path key's visible count defaults to 5 when unset; each
`showMore` on the key raises its visible count by exactly 5 and leaves
every other key unchanged; after `n` expands from a fresh state the count
is `5 + 5 * n`. -/
theorem showMore_correct (st : ExpandedSections) (k : String) :
    visibleCount emptySections k = 5 ∧
    visibleCount (showMore k st) k = visibleCount st k + 5 ∧
    (∀ kk, kk ≠ k → visibleCount (showMore k st) kk = visibleCount st kk) ∧
    (∀ n : Nat, visibleCount ((showMore k)^[n] emptySections) k = 5 + 5 * n) := by
  have hstep : ∀ st' : ExpandedSections,
      visibleCount (showMore k st') k = visibleCount st' k + 5 := by
    intro st'
    rw [visibleCount, showMore]
    simp only [if_true, eq_self_iff_true]
    rw [show jsOrNat (some (jsOrNat (st' k) 5 + 5)) 5 = jsOrNat (st' k) 5 + 5 from by
      rw [jsOrNat]
      simp]
    rfl
  refine ⟨rfl, hstep st, ?_, ?_⟩
  · intro kk hkk
    rw [visibleCount, showMore]
    simp only [if_neg hkk]
    rfl
  · intro n
    induction n with
    | zero => rfl
    | succ n ih =>
      rw [Function.iterate_succ_apply', hstep, ih]
      omega

/-- Witness for C8: a second key is untouched by `showMore` on the first. -/
theorem showMore_correct_witness :
    ("root" : String) ≠ "Music" ∧
    visibleCount (showMore "Music" emptySections) "root" =
      visibleCount emptySections "root" :=
  ⟨by decide, (showMore_correct emptySections "Music").2.2.1 "root" (by decide)⟩

/-- The `selectedHobbies` `useState` initializer. `localStorage.getItem` is
the `stored` argument (`none` models `null`); `JSON.parse` is platform code
modelled by the `parse` oracle, whose `none` result models a thrown parse
error, caught by the initializer's `try`/`catch`. The source guards with
JavaScript truthiness (`saved ? JSON.parse(saved) : []`), so the empty
string is also mapped to the empty selection without parsing. -/
def loadSelectedHobbies (parse : String → Option (List String))
    (stored : Option String) : List String :=
  match stored with
  | none => []
  | some saved =>
    if saved = "" then []
    else
      match parse saved with
      | none => []
      | some v => v

/-- C9: loading the selection never raises (the model is a total function
whose `catch` branch is the `none` case of the parse oracle): a missing
stored value or a failing parse yields the empty selection, and every run
either yields the empty selection or the successfully parsed value. -/
theorem loadSelectedHobbies_safe (parse : String → Option (List String))
    (stored : Option String) :
    (stored = none → loadSelectedHobbies parse stored = []) ∧
    (∀ s, stored = some s → parse s = none →
      loadSelectedHobbies parse stored = []) ∧
    (loadSelectedHobbies parse stored = [] ∨
      ∃ s v, stored = some s ∧ parse s = some v ∧
        loadSelectedHobbies parse stored = v) := by
  refine ⟨?_, ?_, ?_⟩
  · intro h
    rw [h, loadSelectedHobbies]
  · intro s hs hp
    rw [hs, loadSelectedHobbies]
    by_cases he : s = ""
    · rw [if_pos he]
    · rw [if_neg he, hp]
  · match stored with
    | none => exact Or.inl rfl
    | some s =>
      by_cases he : s = ""
      · exact Or.inl (by rw [loadSelectedHobbies, if_pos he])
      · match hp : parse s with
        | none => exact Or.inl (by rw [loadSelectedHobbies, if_neg he, hp])
        | some v =>
          exact Or.inr ⟨s, v, rfl, hp, by rw [loadSelectedHobbies, if_neg he, hp]⟩

/-- Witness for C9: a stored value that fails to parse loads as the empty
selection. -/
theorem loadSelectedHobbies_safe_witness :
    some "garbage" = some "garbage" ∧
    loadSelectedHobbies (fun _ => none) (some "garbage") = [] :=
  ⟨rfl, (loadSelectedHobbies_safe (fun _ => none) (some "garbage")).2.1
    "garbage" rfl rfl⟩

/-- The fixed base palette of 10 predefined pastel colors. -/
def baseColors : List String :=
  ["#FFD5D5", "#D5FFD5", "#D5D5FF", "#FFD5FF", "#FFFFC4",
   "#FFD5C4", "#C4FFD5", "#D5FFFF", "#FFC4C4", "#D5C4FF"]

/-- The value of one hexadecimal digit, as `parseInt(-, 16)` reads it. -/
def hexDigitVal (c : Char) : Nat :=
  if '0' ≤ c ∧ c ≤ '9' then c.toNat - '0'.toNat
  else if 'a' ≤ c ∧ c ≤ 'f' then c.toNat - 'a'.toNat + 10
  else if 'A' ≤ c ∧ c ≤ 'F' then c.toNat - 'A'.toNat + 10
  else 0

/-- `parseInt(s.slice(start, start + 2), 16)` on a two-hex-digit slice. -/
def hexPair (s : String) (start : Nat) : Nat :=
  match (s.toList.drop start).take 2 with
  | [c₁, c₂] => 16 * hexDigitVal c₁ + hexDigitVal c₂
  | _ => 0

/-- The `clamp` helper: `Math.min(255, Math.max(0, n))`. -/
def clampChannel (n : Int) : Int := min 255 (max 0 n)

/-- The `variation` helper, with the `Math.random()` draw `d ∈ [0,1)` made
explicit: `Math.floor(d * 30) - 15`. -/
def variation (d : ℚ) : Int := Int.floor (d * 30) - 15

/-- `n.toString(16).padStart(2, "0")` for a channel value. -/
def hexByte (n : Nat) : String :=
  let s := String.mk (Nat.toDigits 16 n)
  String.mk (List.replicate (2 - s.length) '0') ++ s

/-- `generateSimilarColor` from the source, with its three `Math.random()`
draws passed explicitly: seed from the palette at `index mod
baseColors.length`, decode the three channels, perturb each by an
independent variation, clamp, and re-encode as `#RRGGBB`. -/
def generateSimilarColor (index : Nat) (d₁ d₂ d₃ : ℚ) : String :=
  let baseColor := baseColors.getD (index % baseColors.length) ""
  let r : Int := hexPair baseColor 1
  let g : Int := hexPair baseColor 3
  let b : Int := hexPair baseColor 5
  let newR := clampChannel (r + variation d₁)
  let newG := clampChannel (g + variation d₂)
  let newB := clampChannel (b + variation d₃)
  "#" ++ hexByte newR.toNat ++ hexByte newG.toNat ++ hexByte newB.toNat

/-- The process-wide mutable context of the color assigner, made explicit:
the `categoryColorsMap` (an insertion-ordered association list, like a JS
`Map`), plus the `Math.random()` stream and the position of its next draw. -/
structure ColorState where
  map : List (String × String)
  rand : Nat → ℚ
  pos : Nat

/-- The state at process start: empty map, draw stream untouched. -/
def startState (rand : Nat → ℚ) : ColorState := ⟨[], rand, 0⟩

/-- `getCategoryColor` from the source: if the name has no color yet,
assign the palette entry at `index` when `index` is in palette bounds and a
generated similar color otherwise (consuming three draws); then return the
map entry, with the source's `?? "#FFFFFF"` fallback. -/
def getCategoryColor (categoryName : String) (index : Nat) (st : ColorState) :
    String × ColorState :=
  let st' :=
    if (st.map.lookup categoryName).isSome then st
    else if index < baseColors.length then
      { map := st.map ++ [(categoryName, baseColors.getD index "")],
        rand := st.rand, pos := st.pos }
    else
      { map := st.map ++ [(categoryName,
          generateSimilarColor index (st.rand st.pos) (st.rand (st.pos + 1))
            (st.rand (st.pos + 2)))],
        rand := st.rand, pos := st.pos + 3 }
  ((st'.map.lookup categoryName).getD "#FFFFFF", st')

/-- The `sortedData.forEach((hobby, index) => getCategoryColor(hobby.name,
index))` loop of `initializeCategoryColors`. -/
def initColorsAux : List Hobby → Nat → ColorState → ColorState
  | [], _, st => st
  | h :: t, i, st => initColorsAux t (i + 1) (getCategoryColor h.name i st).2

/-- `initializeCategoryColors` from the source: sort the data, then assign
a color to each top-level category in sorted order, keyed by its rank. -/
def initializeCategoryColors (data : List Hobby) (st : ColorState) : ColorState :=
  initColorsAux (sortByScore data) 0 st

/-- `st₂` is reachable from `st₁` by some sequence of `getCategoryColor`
calls (the only operation that touches the color state). -/
inductive Reach : ColorState → ColorState → Prop where
  | refl (st : ColorState) : Reach st st
  | step {st₁ st₂ : ColorState} (name : String) (index : Nat) :
      Reach st₁ st₂ → Reach st₁ (getCategoryColor name index st₂).2

theorem getCategoryColor_preserves (nm : String) (j : Nat) (st : ColorState)
    {k : String} {v : String} (h : st.map.lookup k = some v) :
    ((getCategoryColor nm j st).2).map.lookup k = some v := by
  rw [getCategoryColor]
  by_cases hs : (st.map.lookup nm).isSome
  · simp only [hs, if_true]
    exact h
  · simp only [hs, if_false, Bool.false_eq_true]
    by_cases hb : j < baseColors.length <;>
      simp only [hb, if_true, if_false] <;>
      rw [List.lookup_append, h] <;> rfl

theorem reach_preserves {st₁ st₂ : ColorState} (hr : Reach st₁ st₂)
    {k v : String} (h : st₁.map.lookup k = some v) :
    st₂.map.lookup k = some v := by
  induction hr with
  | refl => exact h
  | step nm j _ ih => exact getCategoryColor_preserves nm j _ ih

theorem getCategoryColor_lookup_self (nm : String) (j : Nat) (st : ColorState) :
    ((getCategoryColor nm j st).2).map.lookup nm =
      some (getCategoryColor nm j st).1 := by
  rw [getCategoryColor]
  by_cases hs : (st.map.lookup nm).isSome
  · simp only [hs, if_true]
    obtain ⟨c, hc⟩ := Option.isSome_iff_exists.mp hs
    simp [hc]
  · have hn : st.map.lookup nm = none := Option.not_isSome_iff_eq_none.mp hs
    simp only [hs, if_false, Bool.false_eq_true]
    by_cases hb : j < baseColors.length <;>
      simp [hb, List.lookup_append, hn]

theorem getCategoryColor_of_present {nm c : String} {st : ColorState}
    (h : st.map.lookup nm = some c) (j : Nat) :
    getCategoryColor nm j st = (c, st) := by
  rw [getCategoryColor]
  have hs : (st.map.lookup nm).isSome = true := by rw [h]; rfl
  simp [hs, h]

/-- C6: once `getCategoryColor` has been called for a name, the map holds
its color; any later call for that name, after any sequence of further
calls and with any index, returns the identical color and leaves the state
unchanged; and the map only ever gains keys, an existing key's value being
preserved by every call. -/
theorem getCategoryColor_idempotent (name : String) (i : Nat) (st : ColorState) :
    ((getCategoryColor name i st).2).map.lookup name =
      some (getCategoryColor name i st).1 ∧
    (∀ st₂, Reach (getCategoryColor name i st).2 st₂ → ∀ j : Nat,
      (getCategoryColor name j st₂).1 = (getCategoryColor name i st).1 ∧
      (getCategoryColor name j st₂).2 = st₂) ∧
    (∀ st₁ st₂, Reach st₁ st₂ → ∀ k v : String,
      st₁.map.lookup k = some v → st₂.map.lookup k = some v) := by
  refine ⟨getCategoryColor_lookup_self name i st, ?_, ?_⟩
  · intro st₂ hr j
    have hlk : st₂.map.lookup name = some (getCategoryColor name i st).1 :=
      reach_preserves hr (getCategoryColor_lookup_self name i st)
    have := getCategoryColor_of_present hlk j
    exact ⟨by rw [this], by rw [this]⟩
  · intro st₁ st₂ hr k v h
    exact reach_preserves hr h

/-- Witness for C6: after assigning a color to `"Music"` at rank 0, a later
call with a different index returns the same color and does not change the
state. -/
theorem getCategoryColor_idempotent_witness :
    (getCategoryColor "Music" 3
        (getCategoryColor "Music" 0 (startState (fun _ => 0))).2).1 =
      (getCategoryColor "Music" 0 (startState (fun _ => 0))).1 ∧
    (getCategoryColor "Music" 3
        (getCategoryColor "Music" 0 (startState (fun _ => 0))).2).2 =
      (getCategoryColor "Music" 0 (startState (fun _ => 0))).2 :=
  (getCategoryColor_idempotent "Music" 0 (startState (fun _ => 0))).2.1
    (getCategoryColor "Music" 0 (startState (fun _ => 0))).2
    (Reach.refl _) 3

theorem sortByScore_length (hs : List Hobby) :
    (sortByScore hs).length = hs.length := by
  rw [sortByScore_eq, List.length_map, List.length_insertionSort]

theorem initColorsAux_preserves : ∀ (l : List Hobby) (i : Nat) (st : ColorState)
    {k v : String}, st.map.lookup k = some v →
    (initColorsAux l i st).map.lookup k = some v := by
  intro l
  induction l with
  | nil => intro i st k v h; exact h
  | cons hd t ih =>
    intro i st k v h
    rw [initColorsAux]
    exact ih _ _ (getCategoryColor_preserves _ _ _ h)

theorem getCategoryColor_insert_absent {nm : String} {st : ColorState}
    (hn : st.map.lookup nm = none) {i : Nat} (hi : i < baseColors.length) :
    ((getCategoryColor nm i st).2).map =
      st.map ++ [(nm, baseColors.getD i "")] := by
  rw [getCategoryColor]
  have hs : (st.map.lookup nm).isSome = false := by rw [hn]; rfl
  simp [hs, hi]

/-- Processing a list of distinct fresh names from rank `i` on, with all
ranks within the palette, records exactly the palette entry of each name's
rank. -/
theorem initColorsAux_lookup :
    ∀ (l : List Hobby) (i : Nat) (st : ColorState),
      ((l.map Hobby.name).Nodup) →
      (∀ h ∈ l, st.map.lookup h.name = none) →
      i + l.length ≤ baseColors.length →
      ∀ j (hj : j < l.length),
        (initColorsAux l i st).map.lookup ((l.get ⟨j, hj⟩).name) =
          some (baseColors.getD (i + j) "") := by
  intro l
  induction l with
  | nil => intro i st _ _ _ j hj; exact absurd hj (by simp)
  | cons hd t ih =>
    intro i st hnd habs hlen j hj
    rw [List.map_cons, List.nodup_cons] at hnd
    have hlc : (hd :: t).length = t.length + 1 := List.length_cons hd t
    have hn : st.map.lookup hd.name = none := habs hd (List.mem_cons_self hd t)
    have hi : i < baseColors.length := by omega
    have hmap : ((getCategoryColor hd.name i st).2).map =
        st.map ++ [(hd.name, baseColors.getD i "")] :=
      getCategoryColor_insert_absent hn hi
    match j with
    | 0 =>
      rw [initColorsAux]
      apply initColorsAux_preserves
      have hget : ((hd :: t).get ⟨0, hj⟩) = hd := rfl
      rw [hget, hmap, List.lookup_append, hn]
      simp
    | j + 1 =>
      rw [initColorsAux]
      have habs' : ∀ h ∈ t,
          ((getCategoryColor hd.name i st).2).map.lookup h.name = none := by
        intro h hmem
        rw [hmap, List.lookup_append, habs h (List.mem_cons_of_mem _ hmem)]
        have hne : h.name ≠ hd.name :=
          fun he => hnd.1 (he ▸ List.mem_map_of_mem Hobby.name hmem)
        have hbeq : (h.name == hd.name) = false := beq_eq_false_iff_ne.mpr hne
        simp [List.lookup_cons, hbeq]
      have hlen' : (i + 1) + t.length ≤ baseColors.length := by omega
      have hj' : j < t.length := by omega
      have harg := ih (i + 1) _ hnd.2 habs' hlen' j hj'
      have hidx : i + 1 + j = i + (j + 1) := by omega
      rw [hidx] at harg
      rw [List.get_cons_succ]
      exact harg

/-- C2: given a forest with at most 10 top-level categories with distinct
names, after `initializeCategoryColors` runs on the process-start state,
the category of each rank `j` in the score-descending sorted top level has
exactly the palette color `baseColors[j]` — in particular the top-scored
category gets palette index 0's color. -/
theorem initializeCategoryColors_correct (data : List Hobby) (rand : Nat → ℚ)
    (hnd : (data.map Hobby.name).Nodup)
    (hlen : data.length ≤ baseColors.length) :
    ∀ j (hj : j < (sortByScore data).length),
      (initializeCategoryColors data (startState rand)).map.lookup
        (((sortByScore data).get ⟨j, hj⟩).name) = baseColors[j]? := by
  intro j hj
  rw [initializeCategoryColors]
  have hperm := sortByScore_map_name_perm data
  have hnd' : ((sortByScore data).map Hobby.name).Nodup :=
    hperm.nodup_iff.mpr hnd
  have hlen' : (sortByScore data).length = data.length := sortByScore_length data
  have habs : ∀ h ∈ sortByScore data,
      (startState rand).map.lookup h.name = none := fun h _ => rfl
  have h0len : 0 + (sortByScore data).length ≤ baseColors.length := by omega
  have hmain := initColorsAux_lookup (sortByScore data) 0 (startState rand)
    hnd' habs h0len j hj
  have hjb : j < baseColors.length := by omega
  rw [Nat.zero_add] at hmain
  rw [hmain, List.getElem?_eq_getElem hjb]
  congr 1
  rw [List.getD_eq_getElem?_getD, List.getElem?_eq_getElem hjb]
  simp

/-- Witness for C2 at the §8 example forest: the top-ranked category
(`"Music"`, the highest score) receives palette index 0's color. -/
theorem initializeCategoryColors_correct_witness :
    (demoForest.map Hobby.name).Nodup ∧
    (initializeCategoryColors demoForest (startState (fun _ => 0))).map.lookup
      ((sortByScore demoForest).get
        ⟨0, by rw [sortByScore_length]; decide⟩).name = baseColors[0]? :=
  ⟨by decide,
   initializeCategoryColors_correct demoForest (fun _ => 0) (by decide)
     (by decide) 0 (by rw [sortByScore_length]; decide)⟩

/-- C5: for an index at or beyond the palette size and draws in `[0,1)`,
the synthesized color seeds from `baseColors[index mod 10]` and each 8-bit
channel is the seed channel plus an independent offset in `[-15, 15]`,
clamped to `[0, 255]` and re-encoded as two hex digits in `#RRGGBB` form. -/
theorem generateSimilarColor_correct (index : Nat) (d₁ d₂ d₃ : ℚ)
    (hge : baseColors.length ≤ index)
    (hd₁ : 0 ≤ d₁ ∧ d₁ < 1) (hd₂ : 0 ≤ d₂ ∧ d₂ < 1) (hd₃ : 0 ≤ d₃ ∧ d₃ < 1) :
    ∃ o₁ o₂ o₃ : Int,
      (-15 ≤ o₁ ∧ o₁ ≤ 15) ∧ (-15 ≤ o₂ ∧ o₂ ≤ 15) ∧ (-15 ≤ o₃ ∧ o₃ ≤ 15) ∧
      (∀ m : Int, 0 ≤ clampChannel m ∧ clampChannel m ≤ 255) ∧
      generateSimilarColor index d₁ d₂ d₃ =
        "#" ++
        hexByte (clampChannel
          ((hexPair (baseColors.getD (index % 10) "") 1 : Int) + o₁)).toNat ++
        hexByte (clampChannel
          ((hexPair (baseColors.getD (index % 10) "") 3 : Int) + o₂)).toNat ++
        hexByte (clampChannel
          ((hexPair (baseColors.getD (index % 10) "") 5 : Int) + o₃)).toNat := by
  have hbound : ∀ d : ℚ, 0 ≤ d → d < 1 → -15 ≤ variation d ∧ variation d ≤ 15 := by
    intro d h0 h1
    rw [variation]
    have hfl : (0 : Int) ≤ Int.floor (d * 30) := by
      apply Int.floor_nonneg.mpr
      positivity
    have hfu : Int.floor (d * 30) < 30 := by
      apply Int.floor_lt.mpr
      push_cast
      nlinarith
    omega
  refine ⟨variation d₁, variation d₂, variation d₃,
    hbound d₁ hd₁.1 hd₁.2, hbound d₂ hd₂.1 hd₂.2, hbound d₃ hd₃.1 hd₃.2,
    ?_, ?_⟩
  · intro m
    rw [clampChannel]
    constructor
    · rw [le_min_iff]
      exact ⟨by omega, le_max_left 0 m⟩
    · exact min_le_left 255 _
  · rfl

/-- Witness for C5: index 10 (just past the palette) with all three draws
`1/2`. -/
theorem generateSimilarColor_correct_witness :
    baseColors.length ≤ 10 ∧
    ∃ o₁ o₂ o₃ : Int,
      (-15 ≤ o₁ ∧ o₁ ≤ 15) ∧ (-15 ≤ o₂ ∧ o₂ ≤ 15) ∧ (-15 ≤ o₃ ∧ o₃ ≤ 15) ∧
      (∀ m : Int, 0 ≤ clampChannel m ∧ clampChannel m ≤ 255) ∧
      generateSimilarColor 10 (1/2) (1/2) (1/2) =
        "#" ++
        hexByte (clampChannel
          ((hexPair (baseColors.getD (10 % 10) "") 1 : Int) + o₁)).toNat ++
        hexByte (clampChannel
          ((hexPair (baseColors.getD (10 % 10) "") 3 : Int) + o₂)).toNat ++
        hexByte (clampChannel
          ((hexPair (baseColors.getD (10 % 10) "") 5 : Int) + o₃)).toNat :=
  ⟨by decide,
   generateSimilarColor_correct 10 (1/2) (1/2) (1/2) (by decide)
     ⟨by norm_num, by norm_num⟩ ⟨by norm_num, by norm_num⟩
     ⟨by norm_num, by norm_num⟩⟩

end HobbyPicker
